import Mathlib

/-!
Verification of the application-launcher skill (OpenVoiceOS application
launcher) against its natural-language specification.

The development shallowly embeds the Python source:

* Python dicts holding string keys and string values become association
  lists (`Dict`) with first-match lookup and in-place update.
* Filesystem contents (search directories, directory listings, parse
  results of `.desktop` files and `.app` bundles) are passed in as
  explicit data, mirroring what `os.listdir` / the parsers would return.
* The external fuzzy matcher (`ovos_utils.parse.fuzzy_match` /
  `match_one`) is a parameter (a score function, or the returned
  best-match pair), as the spec treats it as a pluggable
  string-similarity interface; scores are rationals.
* Launch / terminate side effects are recorded in the result values
  (spawned command, requested pids) instead of being performed.
-/

/-! ## Python dict model (string keys and values) -/

/-- A Python `dict` with string keys/values, as an ordered association list. -/
abbrev Dict := List (String × String)

/-- `d[k]` lookup (first matching key). -/
def dget : Dict → String → Option String
  | [], _ => none
  | (k', v) :: rest, k => if k' = k then some v else dget rest k

/-- `k in d` (dict key membership). -/
def dmem (d : Dict) (k : String) : Bool := (dget d k).isSome

/-- `d[k] = v`: replace the first binding of `k` in place, else append. -/
def dset : Dict → String → String → Dict
  | [], k, v => [(k, v)]
  | (k', v') :: rest, k, v =>
    if k' = k then (k, v) :: rest else (k', v') :: dset rest k v

theorem dget_dset_self (d : Dict) (k v : String) : dget (dset d k v) k = some v := by
  induction d with
  | nil => simp [dset, dget]
  | cons p rest ih =>
    by_cases h : p.1 = k
    · simp [dset, h, dget]
    · simp [dset, h, dget, ih]

theorem dget_dset_ne (d : Dict) (k k' v : String) (h : k' ≠ k) :
    dget (dset d k' v) k = dget d k := by
  induction d with
  | nil => simp [dset, dget, h]
  | cons p rest ih =>
    by_cases hp : p.1 = k'
    · simp [dset, hp, dget, h, hp ▸ h]
    · simp [dset, hp, dget, ih]

theorem dget_dset_preserve (d : Dict) (k k' v : String)
    (h : dget d k = some v) : dget (dset d k' v) k = some v := by
  by_cases hk : k' = k
  · subst hk; exact dget_dset_self d k' v
  · rw [dget_dset_ne d k k' v hk]; exact h

theorem dmem_dset (d : Dict) (k k' v : String)
    (h : dmem (dset d k' v) k = true) : k = k' ∨ dmem d k = true := by
  by_cases hk : k' = k
  · exact Or.inl hk.symm
  · rw [dmem, dget_dset_ne d k k' v hk] at h; exact Or.inr h

/-! ### Generic fold lemmas over dict-building loops -/

theorem foldl_dict_preserve {α : Type} (step : Dict → α → Dict) (k v : String)
    (H : ∀ d x, dget d k = some v → dget (step d x) k = some v) :
    ∀ (l : List α) (d : Dict), dget d k = some v → dget (l.foldl step d) k = some v := by
  intro l
  induction l with
  | nil => intro d h; exact h
  | cons x xs ih => intro d h; exact ih (step d x) (H d x h)

theorem foldl_dict_install {α : Type} (step : Dict → α → Dict) (k v : String) (x₀ : α)
    (H : ∀ d x, dget d k = some v → dget (step d x) k = some v)
    (Hx : ∀ d, dget (step d x₀) k = some v) :
    ∀ (l : List α) (d : Dict), x₀ ∈ l → dget (l.foldl step d) k = some v := by
  intro l
  induction l with
  | nil => intro d h; cases h
  | cons x xs ih =>
    intro d h
    rcases List.mem_cons.mp h with h | h
    · subst h
      exact foldl_dict_preserve step k v H xs (step d x₀) (Hx d)
    · exact ih (step d x) h

theorem foldl_dict_inv {α : Type} (step : Dict → α → Dict) (P : Dict → Prop) :
    ∀ (l : List α) (d : Dict),
      (∀ x ∈ l, ∀ d', P d' → P (step d' x)) → P d → P (l.foldl step d) := by
  intro l
  induction l with
  | nil => intro d _ h; exact h
  | cons x xs ih =>
    intro d H h
    exact ih (step d x) (fun y hy d' hd' => H y (List.mem_cons_of_mem x hy) d' hd')
      (H x (List.mem_cons_self x xs) d h)

/-- Last-writer-wins for a dict-building fold: when each element `a`
unconditionally installs every key of `keys a` with value `cmd a`
(`Hinst`) and leaves foreign existing bindings untouched (`Hpres`), any
key installed by some element of the list ends up bound to the value of
one of its installers. -/
theorem foldl_dict_collision {α : Type} (step : Dict → α → Dict) (keys : α → List String)
    (cmd : α → String)
    (Hinst : ∀ d a k, k ∈ keys a → dget (step d a) k = some (cmd a))
    (Hpres : ∀ d a k v, k ∉ keys a → dget d k = some v → dget (step d a) k = some v) :
    ∀ (l : List α) (d : Dict) (k : String),
      (∃ a ∈ l, k ∈ keys a) →
      ∃ a ∈ l, k ∈ keys a ∧ dget (l.foldl step d) k = some (cmd a) := by
  intro l
  induction l with
  | nil =>
    intro d k h
    rcases h with ⟨a, ha, _⟩
    cases ha
  | cons x xs ih =>
    intro d k h
    by_cases hxs : ∃ a ∈ xs, k ∈ keys a
    · rcases ih (step d x) k hxs with ⟨a, ha, hk, heq⟩
      exact ⟨a, List.mem_cons_of_mem x ha, hk, heq⟩
    · rcases h with ⟨a, ha, hk⟩
      rcases List.mem_cons.mp ha with rfl | ha'
      · refine ⟨a, List.mem_cons_self a xs, hk, ?_⟩
        rw [List.foldl_cons]
        refine foldl_dict_inv step (fun d' => dget d' k = some (cmd a)) xs (step d a) ?_
          (Hinst d a k hk)
        intro y hy d' hd'
        exact Hpres d' y k (cmd a) (fun hky => hxs ⟨y, hy, hky⟩) hd'
      · exact absurd ⟨a, ha', hk⟩ hxs

/-! ## Python string primitives

The Python string operations used by the source (`split`, `replace`,
`endswith`, `startswith`, `lower`, slicing) are implemented here by
structural recursion over the character list, so that every concrete
example below evaluates inside the kernel. -/

/-- Whether `p` is a character-wise leading part of `s`. -/
def leadsChars : List Char → List Char → Bool
  | [], _ => true
  | _ :: _, [] => false
  | c :: cs, d :: ds => c = d && leadsChars cs ds

/-- Fuel-driven scanner for Python `str.split(sep)` with non-empty `sep`:
on a separator match emit the accumulated chunk and skip the separator,
else consume one character.  `fuel >= length of the input` makes the
fuel case unreachable. -/
def pySplitAux (sep : List Char) : Nat → List Char → List Char → List (List Char)
  | _, [], cur => [cur.reverse]
  | 0, s, cur => [cur.reverse ++ s]
  | fuel + 1, c :: rest, cur =>
    if !sep.isEmpty && leadsChars sep (c :: rest) then
      cur.reverse :: pySplitAux sep fuel (List.drop (sep.length - 1) rest) []
    else pySplitAux sep fuel rest (c :: cur)

/-- Python `s.split(sep)` for non-empty `sep` (the only way the source
calls it). -/
def pySplit (sep : String) (s : String) : List String :=
  (pySplitAux sep.data s.data.length s.data []).map String.mk

/-- Python `s.replace(old, new)` for non-empty `old`: replace every
non-overlapping occurrence left to right
(`new.join(s.split(old))`). -/
def pyReplace (old new s : String) : String :=
  String.mk (List.intercalate new.data ((pySplitAux old.data s.data.length s.data []).map id))

/-- Python `s.endswith(t)`. -/
def pyEndsWith (s t : String) : Bool :=
  leadsChars t.data.reverse s.data.reverse

/-- Python `s.startswith(t)`. -/
def pyStartsWith (s t : String) : Bool :=
  leadsChars t.data s.data

/-- Python `s.lower()`. -/
def pyLower (s : String) : String :=
  String.mk (s.data.map Char.toLower)

/-- Python `s[1:]`. -/
def pyDropFirst (s : String) : String :=
  String.mk (s.data.drop 1)

/-! ## Linux catalog builder (`get_desktop_apps`, `src/__init__.py`)

A parsed `.desktop` file (`parse_desktop_file` output) is a dict of the
keys of interest.  We model it as a structure; `none` fields stand for
absent keys.  `localizedNames` are the values of the remaining keys that
start with `"Name"` (the `Name[lang]` variants), in dict iteration order.
The model covers parse results that contain a `Name` key (a parse output
lacking `Name` but containing `Exec` would raise a `KeyError` in
`get_desktop_apps`; no claim concerns that input). -/

structure AppInfo where
  Name : String
  Exec : Option String
  /-- the `Type` key (`Type` is reserved in Lean). -/
  typeKey : Option String
  Icon : Option String
  Categories : Option (List String)
  Keywords : Option (List String)
  localizedNames : List String
deriving DecidableEq, Repr

/-- The filter arguments of `get_desktop_apps`. -/
structure CatalogFilters where
  skip_categories : List String
  skip_keywords : List String
  target_categories : List String
  target_keywords : List String
  blacklist : List String
  require_icon : Bool
  require_categories : Bool
deriving Repr

/-- The filter chain of `get_desktop_apps`, in source order (each
`continue` becomes a conjunct). -/
def passesFilters (cfg : CatalogFilters) (a : AppInfo) : Bool :=
  a.Exec.isSome &&
  !(cfg.blacklist.contains a.Name) &&
  (a.typeKey = some "Application") &&
  (a.Icon.isSome || !cfg.require_icon) &&
  (a.Categories.isSome || !(!cfg.target_categories.isEmpty || cfg.require_categories)) &&
  (a.Keywords.isSome || cfg.target_keywords.isEmpty) &&
  !(!cfg.skip_categories.isEmpty &&
      (a.Categories.getD []).any (fun c => cfg.skip_categories.contains c)) &&
  !(!cfg.skip_keywords.isEmpty &&
      (a.Keywords.getD []).any (fun c => cfg.skip_keywords.contains c))

/-- One directory listing entry: filename and the result of
`parse_desktop_file` on it (`none` = empty parse result). -/
abbrev DirEntry := String × Option AppInfo

/-- One search path: whether `isdir` holds, and its listing. -/
abbrev SearchDir := Bool × List DirEntry

/-- `get_desktop_apps`: walk the search paths in priority order, skip
non-`.desktop` and blacklisted filenames, parse, filter.  There is no
deduplication between (or within) search paths. -/
def get_desktop_apps (cfg : CatalogFilters) (fs : List SearchDir) : List AppInfo :=
  (fs.filter (fun d => d.1)).flatMap (fun d =>
    d.2.filterMap (fun e =>
      if !(pyEndsWith e.1 ".desktop") || cfg.blacklist.contains e.1 then none
      else match e.2 with
        | none => none
        | some a => if passesFilters cfg a then some a else none))

/-! ## Linux Alias Index (`get_app_aliases`, `src/__init__.py`) -/

/-- `app["Exec"].split(" ")[0].split("/")[-1].split(".")[0]`. -/
def execBasename (exec : String) : String :=
  ((pySplit "." ((pySplit "/" ((pySplit " " exec).headD "")).getLastD "")).headD "")

/-- Python `str.title()` restricted to its behaviour on the character
classes used here: a cased letter starts upper-case after a non-letter
and lower-case after a letter. -/
def pyTitle (s : String) : String :=
  String.mk (s.data.foldl (fun (acc : List Char × Bool) c =>
    if c.isAlpha then
      (acc.1 ++ [if acc.2 then c.toLower else c.toUpper], true)
    else
      (acc.1 ++ [c], false)) ([], false)).1

/-- The `norm` lambda of `get_app_aliases`:
`k.replace(".desktop","").replace("-"," ").replace("_"," ").split(".")[-1].title()`. -/
def normAlias (k : String) : String :=
  pyTitle ((pySplit "." (pyReplace "_" " " (pyReplace "-" " " (pyReplace ".desktop" "" k)))).getLastD "")

/-- `names`: the command basename, every `Name*` value, then the
normalized variant of each. -/
def namesList (a : AppInfo) : List String :=
  let cmd := execBasename (a.Exec.getD "")
  let ns := cmd :: a.Name :: a.localizedNames
  ns ++ ns.map normAlias

/-- `set(names)` modelled as duplicate removal keeping first occurrences
(CPython set iteration order is unspecified; every theorem below is
independent of the order chosen). -/
def pySetAux (seen : List String) : List String → List String
  | [] => []
  | x :: xs => if x ∈ seen then pySetAux seen xs else x :: pySetAux (x :: seen) xs

def pySet (l : List String) : List String := pySetAux [] l

/-- The user configuration consumed by `get_app_aliases`. -/
structure LinuxAliasCfg where
  user_commands : Dict
  aliases : List (String × List String)
deriving Repr

def lookupAliases (cfgAliases : List (String × List String)) (name : String) :
    Option (List String) :=
  match cfgAliases with
  | [] => none
  | (k, v) :: rest => if k = name then some v else lookupAliases rest name

/-- First statement of the `for name in set(names)` body: install
`name -> cmd` when `3 <= len(name) <= 20`. -/
def stepNameDirect (cmd : String) (apps : Dict) (name : String) : Dict :=
  if 3 ≤ name.length ∧ name.length ≤ 20 then dset apps name cmd else apps

/-- Second statement: install every configured alias string for `name`. -/
def stepNameAliases (cfgAliases : List (String × List String)) (cmd : String)
    (apps : Dict) (name : String) : Dict :=
  match lookupAliases cfgAliases name with
  | some strs => strs.foldl (fun d a => dset d a cmd) apps
  | none => apps

/-- Third statement: the KDE quirk installs `"C" + name[1:]` without
overwriting an existing key. -/
def stepNameKde (cmd : String) (kde : Bool) (apps : Dict) (name : String) : Dict :=
  if pyStartsWith name "K" && kde then
    if dmem apps ("C" ++ pyDropFirst name) then apps
    else dset apps ("C" ++ pyDropFirst name) cmd
  else apps

/-- Loop body of `for name in set(names)` in `get_app_aliases`, the three
statements in source order. -/
def stepName (cfgAliases : List (String × List String)) (cmd : String) (kde : Bool)
    (apps : Dict) (name : String) : Dict :=
  stepNameKde cmd kde (stepNameAliases cfgAliases cmd (stepNameDirect cmd apps name) name) name

/-- Processing of one discovered app inside `get_app_aliases`. -/
def processApp (cfg : LinuxAliasCfg) (apps : Dict) (a : AppInfo) : Dict :=
  let cmd := execBasename (a.Exec.getD "")
  let kde := (a.Categories.getD []).contains "KDE"
  (pySet (namesList a)).foldl (stepName cfg.aliases cmd kde) apps

/-- `get_app_aliases`: seed with `settings["user_commands"]`, then fold
the discovered apps over it (each discovered write lands after the
user-command seed). -/
def get_app_aliases (cfg : LinuxAliasCfg) (fcfg : CatalogFilters)
    (fs : List SearchDir) : Dict :=
  (get_desktop_apps fcfg fs).foldl (processApp cfg) cfg.user_commands

/-- The alias strings configured for candidate name `n` (empty when the
name has no entry in `settings["aliases"]`). -/
def aliasStringsFor (cfgAliases : List (String × List String)) (n : String) : List String :=
  match lookupAliases cfgAliases n with
  | some strs => strs
  | none => []

/-- The keys written unconditionally while the loop body processes
candidate name `n`: the direct write when `n` is within the 3–20 bound,
and the configured alias strings for `n`.  The KDE-quirk write is
guarded by `alias not in apps` (it never overwrites) and is therefore
not an unconditional installing write. -/
def stepKeys (cfgAliases : List (String × List String)) (n : String) : List String :=
  (if 3 ≤ n.length ∧ n.length ≤ 20 then [n] else []) ++ aliasStringsFor cfgAliases n

/-- All keys a discovered record installs unconditionally in
`get_app_aliases`. -/
def linuxNameKeys (cfgAliases : List (String × List String)) (a : AppInfo) : List String :=
  (pySet (namesList a)).flatMap (stepKeys cfgAliases)

/-! ## macOS bundle parser (`parse_app_bundle`,
`src/skill_mac_application_launcher/macos_controller.py`) -/

/-- One discovered macOS application (the dict built by
`parse_app_bundle`). -/
structure MacAppInfo where
  name : String
  path : String
  bundle_id : String
  version : String
  localized_names : List String
deriving DecidableEq, Repr

/-- The relevant plist keys of `Contents/Info.plist`. -/
structure PlistData where
  CFBundleName : Option String
  CFBundleDisplayName : Option String
  CFBundleIdentifier : Option String
  CFBundleShortVersionString : Option String
deriving DecidableEq, Repr

/-- State of the bundle's `Contents/Info.plist` on disk. -/
inductive PlistFile
  | missing
  | corrupt
  | valid (data : PlistData)
deriving DecidableEq, Repr

/-- `os.path.basename`. -/
def pyBasename (p : String) : String := (pySplit "/" p).getLastD ""

/-- Python truthy-`or` on `plist_data.get(...)` results: keep the first
present, non-empty string. -/
def pyOrStr (a b : Option String) : Option String :=
  match a with
  | some s => if s ≠ "" then some s else b
  | none => b

/-- `parse_app_bundle`: `{}` (here `none`) when `Contents/Info.plist`
does not exist; a minimal record derived from the directory name when
the plist cannot be parsed; otherwise the full record.  The `list(set(...))`
on localized names is modelled keeping first occurrences. -/
def parse_app_bundle (app_path : String) (plist : PlistFile) : Option MacAppInfo :=
  match plist with
  | .missing => none
  | .corrupt =>
    some { name := pyReplace ".app" "" (pyBasename app_path), path := app_path,
           bundle_id := "", version := "", localized_names := [] }
  | .valid d =>
    let app_name := ((pyOrStr d.CFBundleName d.CFBundleDisplayName).getD "")
    let app_name := if app_name = "" then pyReplace ".app" "" (pyBasename app_path) else app_name
    let locs := (match d.CFBundleDisplayName with | some s => [s] | none => []) ++
      (match d.CFBundleName with
       | some s => if s ≠ app_name then [s] else []
       | none => [])
    some { name := app_name, path := app_path,
           bundle_id := d.CFBundleIdentifier.getD "",
           version := d.CFBundleShortVersionString.getD "",
           localized_names := pySet locs }

/-! ## macOS catalog enumeration (`get_macos_apps`) -/

/-- One `listdir` entry of a macOS application directory: item name,
whether `isdir(join(dir, item))`, and the `parse_app_bundle` result. -/
abbrev MacItem := String × Bool × Option MacAppInfo

/-- One macOS search directory: whether it is an accessible directory,
and its listing. -/
abbrev MacDir := Bool × List MacItem

/-- The per-item checks of `get_macos_apps` that precede the `seen_apps`
deduplication, in source order. -/
def macItemPass (blocklist : List String) (it : MacItem) : Option MacAppInfo :=
  if !(pyEndsWith it.1 ".app") || blocklist.contains it.1 then none
  else if !it.2.1 then none
  else match it.2.2 with
    | none => none
    | some info =>
      if info.name = "" then none
      else if blocklist.contains info.name then none
      else some info

/-- Inner loop of `get_macos_apps` over one directory listing, threading
the `seen_apps` set (modelled as a list of lowercased names). -/
def macDirScan (blocklist : List String) (seen : List String) :
    List MacItem → List String × List MacAppInfo
  | [] => (seen, [])
  | it :: rest =>
    match macItemPass blocklist it with
    | none => macDirScan blocklist seen rest
    | some info =>
      let key := pyLower info.name
      if key ∈ seen then macDirScan blocklist seen rest
      else
        let r := macDirScan blocklist (key :: seen) rest
        (r.1, info :: r.2)

/-- Outer loop of `get_macos_apps` over the search directories. -/
def macAppsAux (blocklist : List String) (seen : List String) :
    List MacDir → List MacAppInfo
  | [] => []
  | d :: rest =>
    if d.1 then
      let r := macDirScan blocklist seen d.2
      r.2 ++ macAppsAux blocklist r.1 rest
    else macAppsAux blocklist seen rest

/-- `get_macos_apps`. -/
def get_macos_apps (blocklist : List String) (fs : List MacDir) : List MacAppInfo :=
  macAppsAux blocklist [] fs

/-- The stream of candidates that pass every per-item check, before
deduplication, in priority order. -/
def macCandidates (blocklist : List String) (fs : List MacDir) : List MacAppInfo :=
  (fs.filter (fun d => d.1)).flatMap (fun d => d.2.filterMap (macItemPass blocklist))

/-- Modelled from the spec: "an application already yielded under a
given normalized identity is not yielded again from a later
(lower-priority) search path — first occurrence wins", with the
normalized identity being the lowercased name.  Scan keeping the first
candidate of each identity. -/
def dedupScan (seen : List String) : List MacAppInfo → List String × List MacAppInfo
  | [] => (seen, [])
  | a :: rest =>
    if pyLower a.name ∈ seen then dedupScan seen rest
    else
      let r := dedupScan (pyLower a.name :: seen) rest
      (r.1, a :: r.2)

/-- Modelled from the spec (see `dedupScan`). -/
def dedupKeepFirst (l : List MacAppInfo) : List MacAppInfo := (dedupScan [] l).2

/-! ## macOS Alias Index (`_build_app_aliases`) -/

/-- The settings consumed by `_build_app_aliases`. -/
structure MacSettings where
  user_commands : Dict
  aliases : List (String × List String)
deriving Repr

/-- `_build_app_aliases` loop, second statement: add the localized names
differing from the main name. -/
def macLocalizedWrites (info : MacAppInfo) (apps : Dict) : Dict :=
  info.localized_names.foldl
    (fun d ln => if ln ≠ info.name then dset d ln info.path else d) apps

/-- `_build_app_aliases` loop, third statement: add the configured alias
strings for the app name. -/
def macAliasWrites (cfgAliases : List (String × List String)) (info : MacAppInfo)
    (apps : Dict) : Dict :=
  match lookupAliases cfgAliases info.name with
  | some strs => strs.foldl (fun d a => dset d a info.path) apps
  | none => apps

/-- Loop body of `_build_app_aliases` for one discovered app: install
the main name, the localized names differing from it, and the configured
alias strings — every write carries the app's path. -/
def macProcessApp (cfgAliases : List (String × List String)) (apps : Dict)
    (info : MacAppInfo) : Dict :=
  macAliasWrites cfgAliases info (macLocalizedWrites info (dset apps info.name info.path))

/-- `_build_app_aliases`: seed with a copy of
`settings.get("user_commands", {})`, then fold the discovered apps over
it; on a discovery error the fold covers the successfully produced
prefix. -/
def build_app_aliases (s : MacSettings) (discovered : List MacAppInfo) : Dict :=
  discovered.foldl (macProcessApp s.aliases) s.user_commands

/-- All keys a discovered record installs in `_build_app_aliases`: the
main name, the localized names differing from it, and the configured
alias strings for the main name (every such write is an unconditional
dict assignment). -/
def macKeys (cfgAliases : List (String × List String)) (info : MacAppInfo) : List String :=
  info.name :: (info.localized_names.filter (fun ln => ln ≠ info.name) ++
    aliasStringsFor cfgAliases info.name)

/-! ## Launch (`launch_app`, `src/__init__.py`)

`match_one(app.title(), self.applist)` is the external matcher; its
returned `(command, score)` pair is a parameter.  The float threshold
`self.settings.get("thresh", 0.85)` and the score are modelled as
rationals.  `subprocess.Popen` is modelled by `spawnOk` (whether the
spawn raises); the spawned command and whether the spawn was attempted
are recorded in the result. -/

structure LaunchResult where
  ok : Bool
  spawned : Option String
  attempted : Bool
deriving DecidableEq, Repr

/-- `launch_app`: accept iff `score >= thresh`; only then is the spawn
attempted. -/
def launch_app (matchResult : String × ℚ) (threshSetting : Option ℚ)
    (spawnOk : Bool) : LaunchResult :=
  if threshSetting.getD (mkRat 85 100) ≤ matchResult.2 then
    if spawnOk then
      { ok := true, spawned := some matchResult.1, attempted := true }
    else
      { ok := false, spawned := none, attempted := true }
  else
    { ok := false, spawned := none, attempted := false }

/-! ## Process controller (`match_process` / `close_by_process`,
`src/__init__.py`) -/

/-- A live OS process as seen through `psutil`: pid, reported name,
creation time, zombie status, and whether `terminate()` succeeds
(`false` = raises `NoSuchProcess`/`AccessDenied`). -/
structure Proc where
  pid : Nat
  name : String
  create_time : Int
  zombie : Bool
  terminateOk : Bool
deriving DecidableEq, Repr

/-- `cmd.split(" ")[0].split("/")[-1]` (the basename extraction in
`match_process`; note: no extension strip here, unlike
`get_app_aliases`). -/
def procBasename (cmd : String) : String :=
  (pySplit "/" ((pySplit " " cmd).headD "")).getLastD ""

/-- Stable insertion of a process into a list sorted by creation time
descending: `p` goes before the first element it was originally ahead of
whose creation time does not exceed `p`'s. -/
def insertByCreateDesc (p : Proc) : List Proc → List Proc
  | [] => [p]
  | q :: rest =>
    if q.create_time ≤ p.create_time then p :: q :: rest
    else q :: insertByCreateDesc p rest

/-- `sorted(..., key=create_time, reverse=True)`: stable sort by
creation time descending. -/
def sortByCreateDesc : List Proc → List Proc
  | [] => []
  | p :: rest => insertByCreateDesc p (sortByCreateDesc rest)

/-- `match_process` after the `match_one` resolution: sort the process
list by creation time descending (stable), skip zombies, keep processes
whose name fuzzy-matches the basename above `0.9`.  `fz` is the external
`fuzzy_match`. -/
def match_process (fz : String → String → ℚ) (resolvedCmd : String)
    (procs : List Proc) : List Proc :=
  let cmd := procBasename resolvedCmd
  (sortByCreateDesc procs).filter
    (fun p => !p.zombie && decide (mkRat 9 10 < fz cmd p.name))

/-- The `for proc in self.match_process(app)` loop of `close_by_process`,
recording `(requested, terminated)` pids: a successful `terminate()`
appends the pid and, when `terminate_all` is unset, breaks; a failed
`terminate()` is caught and the loop continues. -/
def closeScan (terminate_all : Bool) : List Proc → List Nat × List Nat
  | [] => ([], [])
  | p :: rest =>
    if p.terminateOk then
      if !terminate_all then ([p.pid], [p.pid])
      else
        let r := closeScan terminate_all rest
        (p.pid :: r.1, p.pid :: r.2)
    else
      let r := closeScan terminate_all rest
      (p.pid :: r.1, r.2)

/-- `close_by_process`: run the loop over the matched processes; the
boolean result is "some pid was terminated". -/
def close_by_process (terminate_all : Bool) (fz : String → String → ℚ)
    (resolvedCmd : String) (procs : List Proc) : (List Nat × List Nat) × Bool :=
  let r := closeScan terminate_all (match_process fz resolvedCmd procs)
  (r, !r.2.isEmpty)

/-! ## Window controller (`match_window`, `src/__init__.py`) -/

/-- One entry of `get_window_process_mapping`:
`(window_id, process, create_time, window_title)`. -/
structure Window where
  id : String
  procName : String
  create_time : Int
  title : String
deriving DecidableEq, Repr

/-- `max(fuzzy_match(win[1].name(), app), fuzzy_match(win[-1], app))`. -/
def wScore (fz : String → String → ℚ) (app : String) (w : Window) : ℚ :=
  max (fz w.procName app) (fz w.title app)

/-- Loop body of `match_window` over `(candidates, best)`. -/
def matchWindowStep (fz : String → String → ℚ) (thresh : ℚ) (app : String)
    (st : List Window × ℚ) (win : Window) : List Window × ℚ :=
  let score := wScore fz app win
  if score < thresh then st
  else
    let candidates := if st.2 < score then [] else st.1
    if st.2 ≤ score then (candidates ++ [win], score) else (candidates, st.2)

/-- `match_window`: fold the windows over `candidates = []`, `best = 0`. -/
def match_window (fz : String → String → ℚ) (thresh : ℚ) (app : String)
    (windows : List Window) : List Window :=
  (windows.foldl (matchWindowStep fz thresh app) ([], 0)).1

/-! ## Already-running confirmation flow (`handle_async_prompt`,
`src/__init__.py` and `src/skill_mac_application_launcher/__init__.py`)

`ask_yesno` returns `"yes"`, `"no"`, the raw utterance, or `None`; the
local variables `switch` / `launch` start as the Python booleans
`False` / `True`.  Python truthiness and the `in ["no", "yes"]` tests
are modelled on a small value type.  The answers are an infinite stream
indexed by how many questions were asked so far. -/

inductive PyVal
  | pybool (b : Bool)
  | pystr (s : String)
  | pynone
deriving DecidableEq, Repr

/-- Python truthiness for the values `switch` / `launch` can hold. -/
def truthy : PyVal → Bool
  | .pybool b => b
  | .pystr s => s ≠ ""
  | .pynone => false

/-- `x in ["no", "yes"]` (Python `==` between a bool/None and a string is
always false). -/
def isYesNoVal (v : PyVal) : Bool :=
  v = .pystr "no" || v = .pystr "yes"

/-- The first `for i in range(5)` loop: re-ask while the answer is
neither "yes" nor "no"; on "yes" switch the window and return.  The
result is `(switch, next answer index, questions asked, returned?)`. -/
def switchLoop (ans : Nat → PyVal) : Nat → PyVal → Nat → Nat → PyVal × Nat × Nat × Bool
  | 0, sw, idx, asks => (sw, idx, asks, false)
  | n + 1, sw, idx, asks =>
    if !(isYesNoVal sw) then
      let sw2 := ans idx
      if truthy sw2 && sw2 = .pystr "yes" then (sw2, idx + 1, asks + 1, true)
      else switchLoop ans n sw2 (idx + 1) (asks + 1)
    else switchLoop ans n sw idx asks

/-- The second `for i in range(5)` loop: re-ask while the answer is
neither "yes" nor "no"; on "no" return with no action. -/
def launchLoop (ans : Nat → PyVal) : Nat → PyVal → Nat → Nat → PyVal × Nat × Nat × Bool
  | 0, la, idx, asks => (la, idx, asks, false)
  | n + 1, la, idx, asks =>
    if !(isYesNoVal la) then
      let la2 := ans idx
      if la2 = .pystr "no" then (la2, idx + 1, asks + 1, true)
      else launchLoop ans n la2 (idx + 1) (asks + 1)
    else launchLoop ans n la idx asks

inductive PromptOutcome
  | switched
  | noAction
  | launched
deriving DecidableEq, Repr

structure PromptResult where
  outcome : PromptOutcome
  switchAsks : Nat
  launchAsks : Nat
deriving DecidableEq, Repr

/-- `handle_async_prompt` (after the "already running" dialog), with
`wm` = window management available (`self.wmctrl` and not
`disable_window_manager`).  Gate into the second question is
`if not switch:` — Python truthiness of the final `switch` value. -/
def handle_async_prompt (wm : Bool) (ans : Nat → PyVal) : PromptResult :=
  let r :=
    if wm then switchLoop ans 5 (.pybool false) 0 0
    else (.pybool false, 0, 0, false)
  if r.2.2.2 then { outcome := .switched, switchAsks := r.2.2.1, launchAsks := 0 }
  else if !(truthy r.1) then
    let r2 := launchLoop ans 5 (.pybool true) r.2.1 0
    if r2.2.2.2 then
      { outcome := .noAction, switchAsks := r.2.2.1, launchAsks := r2.2.2.1 }
    else
      { outcome := .launched, switchAsks := r.2.2.1, launchAsks := r2.2.2.1 }
  else { outcome := .launched, switchAsks := r.2.2.1, launchAsks := 0 }

/-! ## macOS controller cache (`app_aliases` property,
`refresh_app_cache`, `is_cache_valid`, `_ensure_cache_or_rebuild`,
`launch_app` of `MacOSApplicationController`)

`_build_app_aliases` may raise; its successive invocations are a stream
`build : Nat → Option Dict` (`none` = raises), consumed at the index of
the `builds` ghost counter.  `rebuilds` counts the rebuilds performed by
`_ensure_cache_or_rebuild`.  `match_one` is a parameter `matcher`
(`none` = raises `IndexError`/`ValueError`, i.e. no match). -/

structure CtrlState where
  app_cache : Option Dict
  cache_build_failed : Bool
  builds : Nat
  rebuilds : Nat
deriving DecidableEq, Repr

/-- The `app_aliases` property: return the cache when present, else try
one build; on failure set the failed flag and return `{}`. -/
def app_aliases_get (build : Nat → Option Dict) (st : CtrlState) : Dict × CtrlState :=
  match st.app_cache with
  | some c => (c, st)
  | none =>
    match build st.builds with
    | some d =>
      (d, { app_cache := some d, cache_build_failed := false,
            builds := st.builds + 1, rebuilds := st.rebuilds })
    | none =>
      ([], { app_cache := none, cache_build_failed := true,
             builds := st.builds + 1, rebuilds := st.rebuilds })

/-- `is_cache_valid`. -/
def is_cache_valid (st : CtrlState) : Bool :=
  st.app_cache.isSome && !st.cache_build_failed

/-- `refresh_app_cache`. -/
def refresh_app_cache (st : CtrlState) : CtrlState :=
  { st with app_cache := none, cache_build_failed := false }

/-- `_ensure_cache_or_rebuild` (the rebuild execution bumps the
`rebuilds` ghost counter). -/
def ensure_cache_or_rebuild (build : Nat → Option Dict) (st : CtrlState) :
    Bool × CtrlState :=
  if st.cache_build_failed || st.app_cache.isNone then
    let st1 := refresh_app_cache st
    let st1 := { st1 with rebuilds := st1.rebuilds + 1 }
    let r := app_aliases_get build st1
    (is_cache_valid r.2, r.2)
  else (true, st)

/-- The accept-and-spawn tail of the macOS `launch_app`
(`score >= thresh` then `subprocess.Popen(["open", ...])`, exceptions
caught). -/
def macLaunchDecision (score thresh : ℚ) (spawnOk : Bool) : Bool :=
  decide (thresh ≤ score) && spawnOk

/-- The macOS `launch_app`: resolve via `match_one` over `app_aliases`;
on a failed lookup with an invalid cache, rebuild once and retry the
lookup; otherwise return `False`. -/
def mac_launch_app (build : Nat → Option Dict)
    (matcher : Dict → Option (String × ℚ)) (thresh : ℚ) (spawnOk : Bool)
    (st : CtrlState) : Bool × CtrlState :=
  let r := app_aliases_get build st
  match matcher r.1 with
  | some ms => (macLaunchDecision ms.2 thresh spawnOk, r.2)
  | none =>
    if !(is_cache_valid r.2) then
      let e := ensure_cache_or_rebuild build r.2
      if e.1 then
        let r2 := app_aliases_get build e.2
        match matcher r2.1 with
        | some ms => (macLaunchDecision ms.2 thresh spawnOk, r2.2)
        | none => (false, r2.2)
      else (false, e.2)
    else (false, r.2)


/-! ## Helper lemmas about the alias builders -/

theorem lookupAliases_mem :
    ∀ (l : List (String × List String)) (n : String) (v : List String),
      lookupAliases l n = some v → (n, v) ∈ l := by
  intro l
  induction l with
  | nil => intro n v h; simp [lookupAliases] at h
  | cons p rest ih =>
    intro n v h
    obtain ⟨k, w⟩ := p
    by_cases hp : k = n
    · simp only [lookupAliases, if_pos hp] at h
      obtain ⟨rfl⟩ := h
      subst hp
      exact List.mem_cons_self _ _
    · simp only [lookupAliases, if_neg hp] at h
      exact List.mem_cons_of_mem _ (ih n v h)

theorem pySetAux_mem (k : String) :
    ∀ (l : List String) (seen : List String), k ∈ l → k ∉ seen → k ∈ pySetAux seen l := by
  intro l
  induction l with
  | nil => intro seen h _; cases h
  | cons x xs ih =>
    intro seen h hk
    rcases List.mem_cons.mp h with h | h
    · subst h
      rw [pySetAux, if_neg hk]
      exact List.mem_cons_self k _
    · by_cases hx : x ∈ seen
      · rw [pySetAux, if_pos hx]
        exact ih seen h hk
      · rw [pySetAux, if_neg hx]
        by_cases hxk : k = x
        · subst hxk; exact List.mem_cons_self k _
        · exact List.mem_cons_of_mem x
            (ih (x :: seen) h (by simp [hxk, hk]))

theorem pySet_mem (k : String) (l : List String) (h : k ∈ l) : k ∈ pySet l :=
  pySetAux_mem k l [] h (List.not_mem_nil k)

theorem stepNameDirect_preserve (cmd k : String) (d : Dict) (name : String)
    (h : dget d k = some cmd) : dget (stepNameDirect cmd d name) k = some cmd := by
  unfold stepNameDirect
  split
  · exact dget_dset_preserve d k name cmd h
  · exact h

theorem stepNameAliases_preserve (cfgAliases : List (String × List String))
    (cmd k : String) (d : Dict) (name : String)
    (h : dget d k = some cmd) : dget (stepNameAliases cfgAliases cmd d name) k = some cmd := by
  unfold stepNameAliases
  cases lookupAliases cfgAliases name with
  | none => exact h
  | some strs =>
    exact foldl_dict_preserve (fun d a => dset d a cmd) k cmd
      (fun d' x hx => dget_dset_preserve d' k x cmd hx) strs d h

theorem stepNameKde_preserve (cmd : String) (kde : Bool) (k : String) (d : Dict)
    (name : String) (h : dget d k = some cmd) :
    dget (stepNameKde cmd kde d name) k = some cmd := by
  unfold stepNameKde
  split
  · split
    · exact h
    · exact dget_dset_preserve d k _ cmd h
  · exact h

/-- Every write performed by `stepName` carries the value `cmd`, so a
binding `k -> cmd` survives it. -/
theorem stepName_preserve (cfgAliases : List (String × List String)) (cmd : String)
    (kde : Bool) (k : String) (d : Dict) (name : String)
    (h : dget d k = some cmd) :
    dget (stepName cfgAliases cmd kde d name) k = some cmd :=
  stepNameKde_preserve cmd kde k _ name
    (stepNameAliases_preserve cfgAliases cmd k _ name
      (stepNameDirect_preserve cmd k d name h))

/-- When `name` is within the 3–20 bound, `stepName` installs
`name -> cmd`. -/
theorem stepName_install (cfgAliases : List (String × List String)) (cmd : String)
    (kde : Bool) (d : Dict) (name : String)
    (hb : 3 ≤ name.length ∧ name.length ≤ 20) :
    dget (stepName cfgAliases cmd kde d name) name = some cmd := by
  have h1 : dget (stepNameDirect cmd d name) name = some cmd := by
    unfold stepNameDirect
    rw [if_pos hb]
    exact dget_dset_self d name cmd
  exact stepNameKde_preserve cmd kde name _ name
    (stepNameAliases_preserve cfgAliases cmd name _ name h1)

/-- Any in-bound candidate name of an app is bound to the app's command
basename after `processApp`, whatever the incoming dict. -/
theorem processApp_install (cfg : LinuxAliasCfg) (d : Dict) (a : AppInfo) (name : String)
    (hn : name ∈ namesList a) (hb : 3 ≤ name.length ∧ name.length ≤ 20) :
    dget (processApp cfg d a) name = some (execBasename (a.Exec.getD "")) := by
  unfold processApp
  exact foldl_dict_install
    (stepName cfg.aliases (execBasename (a.Exec.getD ""))
      ((a.Categories.getD []).contains "KDE"))
    name (execBasename (a.Exec.getD "")) name
    (fun d' x hx => stepName_preserve _ _ _ _ d' x hx)
    (fun d' => stepName_install _ _ _ d' name hb)
    (pySet (namesList a)) d (pySet_mem name _ hn)

/-- When the discovered sequence ends with `a`, every in-bound candidate
name of `a` is bound to `a`'s command basename in the final index. -/
theorem get_app_aliases_last (cfg : LinuxAliasCfg) (fcfg : CatalogFilters)
    (fs : List SearchDir) (l : List AppInfo) (a : AppInfo) (name : String)
    (h : get_desktop_apps fcfg fs = l ++ [a])
    (hn : name ∈ namesList a) (hb : 3 ≤ name.length ∧ name.length ≤ 20) :
    dget (get_app_aliases cfg fcfg fs) name = some (execBasename (a.Exec.getD "")) := by
  unfold get_app_aliases
  rw [h, List.foldl_append, List.foldl_cons, List.foldl_nil]
  exact processApp_install cfg _ a name hn hb

theorem macLocalizedWrites_preserve (info : MacAppInfo) (k : String) (d : Dict)
    (h : dget d k = some info.path) :
    dget (macLocalizedWrites info d) k = some info.path := by
  unfold macLocalizedWrites
  refine foldl_dict_preserve _ k info.path ?_ info.localized_names d h
  intro d' x hx
  split
  · exact dget_dset_preserve d' k x info.path hx
  · exact hx

theorem macAliasWrites_preserve (cfgAliases : List (String × List String))
    (info : MacAppInfo) (k : String) (d : Dict)
    (h : dget d k = some info.path) :
    dget (macAliasWrites cfgAliases info d) k = some info.path := by
  unfold macAliasWrites
  cases lookupAliases cfgAliases info.name with
  | none => exact h
  | some strs =>
    exact foldl_dict_preserve (fun d s => dset d s info.path) k info.path
      (fun d' x hx => dget_dset_preserve d' k x info.path hx) strs d h

/-- Every write performed by `macProcessApp` on app `a` carries `a.path`,
and the first write binds `a.name`, so `a.name -> a.path` holds after it. -/
theorem macProcessApp_name (cfgAliases : List (String × List String)) (d : Dict)
    (a : MacAppInfo) : dget (macProcessApp cfgAliases d a) a.name = some a.path :=
  macAliasWrites_preserve cfgAliases a a.name _
    (macLocalizedWrites_preserve a a.name _ (dget_dset_self d a.name a.path))

/-- A fold of writes that all target keys other than `k` leaves `k`'s
binding unchanged. -/
theorem foldl_dset_ne (v k : String) :
    ∀ (l : List String) (d : Dict), (∀ x ∈ l, x ≠ k) →
      dget (l.foldl (fun d a => dset d a v) d) k = dget d k := by
  intro l
  induction l with
  | nil => intro d _; rfl
  | cons x xs ih =>
    intro d h
    rw [List.foldl_cons, ih (dset d x v) (fun y hy => h y (List.mem_cons_of_mem x hy)),
      dget_dset_ne d k x v (h x (List.mem_cons_self x xs))]

/-- `stepNameAliases` installs every configured alias string of `n`. -/
theorem stepNameAliases_install (cfgAliases : List (String × List String)) (cmd : String)
    (d : Dict) (n k : String) (hk : k ∈ aliasStringsFor cfgAliases n) :
    dget (stepNameAliases cfgAliases cmd d n) k = some cmd := by
  unfold aliasStringsFor at hk
  unfold stepNameAliases
  cases hl : lookupAliases cfgAliases n with
  | none => rw [hl] at hk; cases hk
  | some strs =>
    rw [hl] at hk
    exact foldl_dict_install (fun d a => dset d a cmd) k cmd k
      (fun d' x hx => dget_dset_preserve d' k x cmd hx)
      (fun d' => dget_dset_self d' k cmd) strs d hk

/-- `stepName` installs every key of `stepKeys` for the processed name. -/
theorem stepName_install_key (cfgAliases : List (String × List String)) (cmd : String)
    (kde : Bool) (d : Dict) (n k : String) (hk : k ∈ stepKeys cfgAliases n) :
    dget (stepName cfgAliases cmd kde d n) k = some cmd := by
  unfold stepKeys at hk
  rcases List.mem_append.mp hk with hk | hk
  · by_cases hb : 3 ≤ n.length ∧ n.length ≤ 20
    · rw [if_pos hb] at hk
      rcases List.mem_singleton.mp hk with rfl
      exact stepName_install cfgAliases cmd kde d k hb
    · rw [if_neg hb] at hk
      cases hk
  · exact stepNameKde_preserve cmd kde k _ n
      (stepNameAliases_install cfgAliases cmd _ n k hk)

/-- `stepName` leaves an existing binding of a key outside `stepKeys`
untouched: the direct and alias writes target other keys, and the
KDE-quirk write is skipped because the key is already present. -/
theorem stepName_preserve_foreign (cfgAliases : List (String × List String)) (cmd : String)
    (kde : Bool) (d : Dict) (n k v : String)
    (hk : k ∉ stepKeys cfgAliases n) (h : dget d k = some v) :
    dget (stepName cfgAliases cmd kde d n) k = some v := by
  have hk1 : k ∉ (if 3 ≤ n.length ∧ n.length ≤ 20 then [n] else []) :=
    fun hx => hk (by unfold stepKeys; exact List.mem_append_left _ hx)
  have hk2 : k ∉ aliasStringsFor cfgAliases n :=
    fun hx => hk (by unfold stepKeys; exact List.mem_append_right _ hx)
  have h1 : dget (stepNameDirect cmd d n) k = some v := by
    unfold stepNameDirect
    by_cases hb : 3 ≤ n.length ∧ n.length ≤ 20
    · rw [if_pos hb]
      have hne : n ≠ k := by
        intro he
        subst he
        exact hk1 (by rw [if_pos hb]; exact List.mem_singleton_self n)
      rw [dget_dset_ne d k n cmd hne]
      exact h
    · rw [if_neg hb]
      exact h
  have h2 : dget (stepNameAliases cfgAliases cmd (stepNameDirect cmd d n) n) k = some v := by
    unfold stepNameAliases
    cases hl : lookupAliases cfgAliases n with
    | none => exact h1
    | some strs =>
      have hstrs : ∀ x ∈ strs, x ≠ k := by
        intro x hx he
        subst he
        exact hk2 (by unfold aliasStringsFor; rw [hl]; exact hx)
      rw [foldl_dset_ne cmd k strs _ hstrs]
      exact h1
  unfold stepName stepNameKde
  split_ifs with hq hd
  · exact h2
  · by_cases he : ("C" ++ pyDropFirst n) = k
    · exact absurd (by rw [he, dmem, h2]; rfl) hd
    · rw [dget_dset_ne _ k _ cmd he]
      exact h2
  · exact h2

/-- `processApp` installs every key of `linuxNameKeys` with the record's
command basename. -/
theorem processApp_install_key (cfg : LinuxAliasCfg) (d : Dict) (a : AppInfo) (k : String)
    (hk : k ∈ linuxNameKeys cfg.aliases a) :
    dget (processApp cfg d a) k = some (execBasename (a.Exec.getD "")) := by
  unfold linuxNameKeys at hk
  rcases List.mem_flatMap.mp hk with ⟨n, hn, hkn⟩
  unfold processApp
  exact foldl_dict_install
    (stepName cfg.aliases (execBasename (a.Exec.getD ""))
      ((a.Categories.getD []).contains "KDE"))
    k (execBasename (a.Exec.getD "")) n
    (fun d' x hx => stepName_preserve _ _ _ _ d' x hx)
    (fun d' => stepName_install_key _ _ _ d' n k hkn)
    (pySet (namesList a)) d hn

/-- `processApp` leaves an existing binding of a key outside
`linuxNameKeys` untouched (in particular the KDE-quirk write cannot fire
on a key that is already bound). -/
theorem processApp_preserve_foreign (cfg : LinuxAliasCfg) (d : Dict) (a : AppInfo)
    (k v : String) (hk : k ∉ linuxNameKeys cfg.aliases a) (h : dget d k = some v) :
    dget (processApp cfg d a) k = some v := by
  unfold processApp
  refine foldl_dict_inv _ (fun d' => dget d' k = some v) (pySet (namesList a)) d ?_ h
  intro n hn d' hd'
  refine stepName_preserve_foreign cfg.aliases _ _ d' n k v ?_ hd'
  intro hkn
  exact hk (by unfold linuxNameKeys; exact List.mem_flatMap.mpr ⟨n, hn, hkn⟩)

/-- `macProcessApp` installs every key of `macKeys` with the record's
path. -/
theorem macProcessApp_install_key (cfgAliases : List (String × List String)) (d : Dict)
    (info : MacAppInfo) (k : String) (hk : k ∈ macKeys cfgAliases info) :
    dget (macProcessApp cfgAliases d info) k = some info.path := by
  unfold macKeys at hk
  rcases List.mem_cons.mp hk with rfl | hk
  · exact macProcessApp_name cfgAliases d info
  · rcases List.mem_append.mp hk with hk | hk
    · have hmem : k ∈ info.localized_names := (List.mem_filter.mp hk).1
      have hne : k ≠ info.name := by
        have hdec := (List.mem_filter.mp hk).2
        simpa using hdec
      unfold macProcessApp
      refine macAliasWrites_preserve cfgAliases info k _ ?_
      unfold macLocalizedWrites
      refine foldl_dict_install
        (fun d ln => if ln ≠ info.name then dset d ln info.path else d)
        k info.path k ?_ ?_ info.localized_names _ hmem
      · intro d' x hx
        dsimp only
        split
        · exact dget_dset_preserve d' k x info.path hx
        · exact hx
      · intro d'
        dsimp only
        rw [if_pos hne]
        exact dget_dset_self d' k info.path
    · unfold aliasStringsFor at hk
      unfold macProcessApp macAliasWrites
      cases hl : lookupAliases cfgAliases info.name with
      | none => rw [hl] at hk; cases hk
      | some strs =>
        rw [hl] at hk
        exact foldl_dict_install (fun d s => dset d s info.path) k info.path k
          (fun d' x hx => dget_dset_preserve d' k x info.path hx)
          (fun d' => dget_dset_self d' k info.path) strs _ hk

/-- `macProcessApp` leaves the binding of a key outside `macKeys`
untouched. -/
theorem macProcessApp_preserve_foreign (cfgAliases : List (String × List String)) (d : Dict)
    (info : MacAppInfo) (k v : String) (hk : k ∉ macKeys cfgAliases info)
    (h : dget d k = some v) :
    dget (macProcessApp cfgAliases d info) k = some v := by
  have hne : info.name ≠ k := by
    intro he
    exact hk (by unfold macKeys; rw [he]; exact List.mem_cons_self _ _)
  have hloc : ∀ ln ∈ info.localized_names, ln ≠ info.name → ln ≠ k := by
    intro ln hln hlnn he
    subst he
    refine hk (by
      unfold macKeys
      exact List.mem_cons_of_mem _ (List.mem_append_left _
        (List.mem_filter.mpr ⟨hln, by simpa using hlnn⟩)))
  have hstr : k ∉ aliasStringsFor cfgAliases info.name := by
    intro hx
    exact hk (by unfold macKeys; exact List.mem_cons_of_mem _ (List.mem_append_right _ hx))
  have h1 : dget (dset d info.name info.path) k = some v := by
    rw [dget_dset_ne d k info.name info.path hne]
    exact h
  have h2 : dget (macLocalizedWrites info (dset d info.name info.path)) k = some v := by
    unfold macLocalizedWrites
    refine foldl_dict_inv _ (fun d' => dget d' k = some v) info.localized_names _ ?_ h1
    intro ln hln d' hd'
    dsimp only
    split
    · rw [dget_dset_ne d' k ln info.path (hloc ln hln (by assumption))]
      exact hd'
    · exact hd'
  unfold macProcessApp macAliasWrites
  cases hl : lookupAliases cfgAliases info.name with
  | none => exact h2
  | some strs =>
    have hstrs : ∀ x ∈ strs, x ≠ k := by
      intro x hx he
      subst he
      exact hstr (by unfold aliasStringsFor; rw [hl]; exact hx)
    rw [foldl_dset_ne info.path k strs _ hstrs]
    exact h2

/-! ## Helper lemmas for the key-length invariant -/

/-- The key-length property tracked through the Linux index build. -/
def KeysBounded (d : Dict) : Prop :=
  ∀ k : String, dmem d k = true → 3 ≤ k.length ∧ k.length ≤ 20

theorem keysBounded_dset (d : Dict) (k v : String)
    (hd : KeysBounded d) (hk : 3 ≤ k.length ∧ k.length ≤ 20) :
    KeysBounded (dset d k v) := by
  intro k' hk'
  rcases dmem_dset d k' k v hk' with h | h
  · subst h; exact hk
  · exact hd k' h

theorem stepNameDirect_bounded (cmd : String) (d : Dict) (name : String)
    (hd : KeysBounded d) : KeysBounded (stepNameDirect cmd d name) := by
  unfold stepNameDirect
  split
  · exact keysBounded_dset d name cmd hd (by assumption)
  · exact hd

theorem stepNameAliases_bounded (cfgAliases : List (String × List String)) (cmd : String)
    (d : Dict) (name : String)
    (hals : ∀ p ∈ cfgAliases, ∀ s ∈ p.2, 3 ≤ s.length ∧ s.length ≤ 20)
    (hd : KeysBounded d) : KeysBounded (stepNameAliases cfgAliases cmd d name) := by
  unfold stepNameAliases
  cases hl : lookupAliases cfgAliases name with
  | none => exact hd
  | some strs =>
    have hmem := lookupAliases_mem cfgAliases name strs hl
    exact foldl_dict_inv (fun d a => dset d a cmd) KeysBounded strs d
      (fun s hs d' hd' => keysBounded_dset d' s cmd hd' (hals (name, strs) hmem s hs)) hd

theorem stepName_bounded_noKde (cfgAliases : List (String × List String)) (cmd : String)
    (d : Dict) (name : String)
    (hals : ∀ p ∈ cfgAliases, ∀ s ∈ p.2, 3 ≤ s.length ∧ s.length ≤ 20)
    (hd : KeysBounded d) : KeysBounded (stepName cfgAliases cmd false d name) := by
  unfold stepName stepNameKde
  simp only [Bool.and_false, Bool.false_eq_true, if_false]
  exact stepNameAliases_bounded cfgAliases cmd _ name hals
    (stepNameDirect_bounded cmd d name hd)

theorem processApp_bounded (cfg : LinuxAliasCfg) (d : Dict) (a : AppInfo)
    (hals : ∀ p ∈ cfg.aliases, ∀ s ∈ p.2, 3 ≤ s.length ∧ s.length ≤ 20)
    (hkde : (a.Categories.getD []).contains "KDE" = false)
    (hd : KeysBounded d) : KeysBounded (processApp cfg d a) := by
  unfold processApp
  rw [hkde]
  exact foldl_dict_inv (stepName cfg.aliases (execBasename (a.Exec.getD "")) false)
    KeysBounded (pySet (namesList a)) d
    (fun n _ d' hd' => stepName_bounded_noKde cfg.aliases _ d' n hals hd') hd

/-! ## Helper lemmas for the macOS deduplication -/

set_option maxHeartbeats 1000000 in
theorem macDirScan_eq (bl : List String) :
    ∀ (items : List MacItem) (seen : List String),
      macDirScan bl seen items = dedupScan seen (items.filterMap (macItemPass bl)) := by
  intro items
  induction items with
  | nil => intro seen; rfl
  | cons it rest ih =>
    intro seen
    cases h : macItemPass bl it with
    | none =>
      rw [List.filterMap_cons_none h]
      simp only [macDirScan, h]
      exact ih seen
    | some info =>
      rw [List.filterMap_cons_some h]
      simp only [macDirScan, h]
      by_cases hm : pyLower info.name ∈ seen
      · rw [dedupScan, if_pos hm]
        simp only [if_pos hm]
        exact ih seen
      · rw [dedupScan, if_neg hm]
        simp only [if_neg hm]
        rw [ih (pyLower info.name :: seen)]

theorem dedupScan_append :
    ∀ (l1 l2 : List MacAppInfo) (seen : List String),
      dedupScan seen (l1 ++ l2) =
        ((dedupScan (dedupScan seen l1).1 l2).1,
         (dedupScan seen l1).2 ++ (dedupScan (dedupScan seen l1).1 l2).2) := by
  intro l1
  induction l1 with
  | nil => intro l2 seen; simp [dedupScan]
  | cons a rest ih =>
    intro l2 seen
    by_cases hm : pyLower a.name ∈ seen
    · simp [dedupScan, hm, ih]
    · simp [dedupScan, hm, ih]

theorem macAppsAux_eq (bl : List String) :
    ∀ (fs : List MacDir) (seen : List String),
      macAppsAux bl seen fs =
        (dedupScan seen ((fs.filter (fun d => d.1)).flatMap
          (fun d => d.2.filterMap (macItemPass bl)))).2 := by
  intro fs
  induction fs with
  | nil => intro seen; rfl
  | cons d rest ih =>
    intro seen
    by_cases hd : d.1 = true
    · simp only [macAppsAux, hd, if_true, List.filter_cons_of_pos, List.flatMap_cons]
      rw [dedupScan_append, macDirScan_eq]
      simp [ih]
    · simp [macAppsAux, hd, List.filter_cons_of_neg, ih]

/-! ## Helper lemma for the termination loop -/

/-- With `terminate_all` unset, the loop requests termination of every
match up to and including the first one whose request succeeds: caught
failures do not break the loop, a success does. -/
theorem closeScan_false (l : List Proc) :
    closeScan false l =
      ((l.takeWhile (fun p => !p.terminateOk)).map Proc.pid ++
        ((l.dropWhile (fun p => !p.terminateOk)).take 1).map Proc.pid,
       ((l.dropWhile (fun p => !p.terminateOk)).take 1).map Proc.pid) := by
  induction l with
  | nil => rfl
  | cons p rest ih =>
    by_cases h : p.terminateOk
    · simp [closeScan, h, List.takeWhile_cons, List.dropWhile_cons]
    · simp [closeScan, h, List.takeWhile_cons, List.dropWhile_cons, ih]


/-! ## Helper lemmas for `match_window` -/

/-- Case characterization of the `match_window` loop body. -/
theorem matchWindowStep_cases (fz : String → String → ℚ) (thresh : ℚ) (app : String)
    (st : List Window × ℚ) (win : Window) :
    matchWindowStep fz thresh app st win =
      if wScore fz app win < thresh then st
      else if st.2 < wScore fz app win then ([win], wScore fz app win)
      else if st.2 ≤ wScore fz app win then (st.1 ++ [win], wScore fz app win)
      else st := by
  unfold matchWindowStep
  by_cases h1 : wScore fz app win < thresh
  · rw [if_pos h1, if_pos h1]
  · rw [if_neg h1, if_neg h1]
    by_cases h2 : st.2 < wScore fz app win
    · simp only [if_pos h2, if_pos (le_of_lt h2), List.nil_append]
    · simp only [if_neg h2]

/-- Invariant of the `match_window` fold state: every collected window's
score equals the current best and clears the threshold. -/
def WinInv (fz : String → String → ℚ) (thresh : ℚ) (app : String)
    (st : List Window × ℚ) : Prop :=
  ∀ w ∈ st.1, wScore fz app w = st.2 ∧ thresh ≤ wScore fz app w

theorem matchWindowStep_inv (fz : String → String → ℚ) (thresh : ℚ) (app : String)
    (st : List Window × ℚ) (win : Window) (h : WinInv fz thresh app st) :
    WinInv fz thresh app (matchWindowStep fz thresh app st win) := by
  rw [matchWindowStep_cases]
  split_ifs with h1 h2 h3
  · exact h
  · intro w hw
    rcases List.mem_singleton.mp hw with rfl
    exact ⟨rfl, not_lt.mp h1⟩
  · intro w hw
    rcases List.mem_append.mp hw with hw | hw
    · have heq : wScore fz app win = st.2 := le_antisymm (not_lt.mp h2) h3
      rcases h w hw with ⟨ha, hb⟩
      exact ⟨by rw [ha, heq], hb⟩
    · rcases List.mem_singleton.mp hw with rfl
      exact ⟨rfl, not_lt.mp h1⟩
  · exact h

theorem matchWindow_foldl_inv (fz : String → String → ℚ) (thresh : ℚ) (app : String) :
    ∀ (ws : List Window) (st : List Window × ℚ), WinInv fz thresh app st →
      WinInv fz thresh app (ws.foldl (matchWindowStep fz thresh app) st) := by
  intro ws
  induction ws with
  | nil => intro st h; exact h
  | cons win rest ih =>
    intro st h
    exact ih _ (matchWindowStep_inv fz thresh app st win h)

theorem matchWindowStep_best_mono (fz : String → String → ℚ) (thresh : ℚ) (app : String)
    (st : List Window × ℚ) (win : Window) :
    st.2 ≤ (matchWindowStep fz thresh app st win).2 := by
  rw [matchWindowStep_cases]
  split_ifs with h1 h2 h3
  · exact le_refl _
  · exact le_of_lt h2
  · exact h3
  · exact le_refl _

theorem matchWindow_best_mono (fz : String → String → ℚ) (thresh : ℚ) (app : String) :
    ∀ (ws : List Window) (st : List Window × ℚ),
      st.2 ≤ (ws.foldl (matchWindowStep fz thresh app) st).2 := by
  intro ws
  induction ws with
  | nil => intro st; exact le_refl _
  | cons win rest ih =>
    intro st
    exact le_trans (matchWindowStep_best_mono fz thresh app st win) (ih _)

theorem matchWindow_best_ub (fz : String → String → ℚ) (thresh : ℚ) (app : String) :
    ∀ (ws : List Window) (st : List Window × ℚ) (w' : Window),
      w' ∈ ws → thresh ≤ wScore fz app w' →
      wScore fz app w' ≤ (ws.foldl (matchWindowStep fz thresh app) st).2 := by
  intro ws
  induction ws with
  | nil => intro st w' h _; cases h
  | cons win rest ih =>
    intro st w' h ht
    rcases List.mem_cons.mp h with h | h
    · subst h
      refine le_trans ?_ (matchWindow_best_mono fz thresh app rest _)
      rw [matchWindowStep_cases]
      rw [if_neg (not_lt.mpr ht)]
      split_ifs with h2 h3
      · exact le_refl _
      · exact le_refl _
      · exact le_of_not_le h3
    · exact ih _ w' h ht

/-! ## Concrete example inputs -/

/-- The default filter arguments `get_app_aliases` passes to
`get_desktop_apps`. -/
def fcfgDefault : CatalogFilters :=
  { skip_categories := ["Settings", "ConsoleOnly", "Building"],
    skip_keywords := [], target_categories := [], target_keywords := [],
    blacklist := [], require_icon := true, require_categories := true }

/-- A parsed Firefox `.desktop` entry. -/
def appFirefox : AppInfo :=
  { Name := "Firefox", Exec := some "/usr/bin/firefox --new-window",
    typeKey := some "Application", Icon := some "firefox",
    Categories := some ["Network"], Keywords := none, localizedNames := [] }

/-- A single search path containing only `firefox.desktop`. -/
def fsFirefox : List SearchDir := [(true, [("firefox.desktop", some appFirefox)])]

/-- A discovered Safari `.app` bundle record. -/
def macSafari : MacAppInfo :=
  { name := "Safari", path := "/Applications/Safari.app", bundle_id := "",
    version := "", localized_names := [] }

/-- A second discovered bundle record, enumerated after Safari. -/
def macTextEdit : MacAppInfo :=
  { name := "TextEdit", path := "/Applications/TextEdit.app", bundle_id := "",
    version := "", localized_names := [] }

/-- A parsed gedit `.desktop` entry. -/
def appGedit : AppInfo :=
  { Name := "Gedit", Exec := some "/usr/bin/gedit",
    typeKey := some "Application", Icon := some "gedit",
    Categories := some ["Utility"], Keywords := none, localizedNames := [] }

/-- A search path listing `firefox.desktop` before `gedit.desktop`, so
Firefox is not the last-enumerated record. -/
def fsFirefoxGedit : List SearchDir :=
  [(true, [("firefox.desktop", some appFirefox), ("gedit.desktop", some appGedit)])]

/-! ## Claim C1 -/

/-- **C1 counterexample**: the user-defined command `"Safari" -> "usercmd"`
collides with a discovered record named `"Safari"`; the built macOS Alias
Index maps the key to the discovered app path, not to the user-defined
command — the user-command seed is written first and the discovered entry
overwrites it. -/
theorem c1_counterexample :
    dmem [("Safari", "usercmd")] "Safari" = true ∧
    dget (build_app_aliases ⟨[("Safari", "usercmd")], []⟩ [macSafari]) "Safari"
      = some "/Applications/Safari.app" ∧
    some "/Applications/Safari.app" ≠ some "usercmd" := by decide

/-- **C1 (amended)**: user-defined commands are merged first (as the seed
dict) and every discovered write lands after them, so whenever an alias
key of the user-defined commands is also installed by a discovered
record, the built Alias Index maps it to the command of one of the
discovered records installing it, not to the user-defined command: on
macOS to that record's app path, on Linux to its executable basename.
An installing write is an in-bound (3–20) candidate-name write, a
configured alias-string write, or — on macOS — a localized-name write;
the Linux KDE-quirk write is guarded by `alias not in apps` and never
overwrites an existing key, so a key reachable only through the quirk is
not overwritten. -/
theorem c1_amended (s : MacSettings) (discovered : List MacAppInfo) (k : String)
    ( _hmem : dmem s.user_commands k = true)
    (hdisc : ∃ a ∈ discovered, k ∈ macKeys s.aliases a)
    (cfg : LinuxAliasCfg) (fcfg : CatalogFilters) (fs : List SearchDir) (k2 : String)
    ( _hmem2 : dmem cfg.user_commands k2 = true)
    (hdisc2 : ∃ a ∈ get_desktop_apps fcfg fs, k2 ∈ linuxNameKeys cfg.aliases a) :
    (∃ a ∈ discovered, k ∈ macKeys s.aliases a ∧
       dget (build_app_aliases s discovered) k = some a.path) ∧
    (∃ a ∈ get_desktop_apps fcfg fs, k2 ∈ linuxNameKeys cfg.aliases a ∧
       dget (get_app_aliases cfg fcfg fs) k2 =
         some (execBasename (a.Exec.getD ""))) := by
  constructor
  · unfold build_app_aliases
    exact foldl_dict_collision (macProcessApp s.aliases) (macKeys s.aliases)
      MacAppInfo.path
      (fun d a kk hkk => macProcessApp_install_key s.aliases d a kk hkk)
      (fun d a kk v hkk hv => macProcessApp_preserve_foreign s.aliases d a kk v hkk hv)
      discovered s.user_commands k hdisc
  · unfold get_app_aliases
    exact foldl_dict_collision (processApp cfg) (linuxNameKeys cfg.aliases)
      (fun a => execBasename (a.Exec.getD ""))
      (fun d a kk hkk => processApp_install_key cfg d a kk hkk)
      (fun d a kk v hkk hv => processApp_preserve_foreign cfg d a kk v hkk hv)
      (get_desktop_apps fcfg fs) cfg.user_commands k2 hdisc2

/-- Witness for `c1_amended` with the collision on a record that is not
the last-enumerated one on either platform. -/
theorem c1_amended_witness :
    (∃ a ∈ [macSafari, macTextEdit], "Safari" ∈ macKeys [] a ∧
       dget (build_app_aliases ⟨[("Safari", "usercmd")], []⟩ [macSafari, macTextEdit])
         "Safari" = some a.path) ∧
    (∃ a ∈ get_desktop_apps fcfgDefault fsFirefoxGedit,
       "Firefox" ∈ linuxNameKeys [] a ∧
       dget (get_app_aliases ⟨[("Firefox", "usercmd2")], []⟩ fcfgDefault fsFirefoxGedit)
         "Firefox" = some (execBasename (a.Exec.getD ""))) :=
  c1_amended ⟨[("Safari", "usercmd")], []⟩ [macSafari, macTextEdit] "Safari"
    (by decide) (by decide)
    ⟨[("Firefox", "usercmd2")], []⟩ fcfgDefault fsFirefoxGedit "Firefox"
    (by decide) (by decide)

/-! ## Claim C2 -/

/-- **C2 counterexample**: with window management available and the user
answering "no" to the switch question, the second "launch another
instance?" question is never asked (`launchAsks = 0`) and the flow
proceeds to launch rather than terminating with no action — the Python
string `"no"` is truthy, so `if not switch:` skips the second loop. -/
theorem c2_counterexample :
    (handle_async_prompt true (fun _ => .pystr "no")).launchAsks = 0 ∧
    (handle_async_prompt true (fun _ => .pystr "no")).outcome = .launched := by decide

/-- **C2 (amended)**: the second "launch another instance?" question is
asked only when the switch question concludes with a falsy value (such
as five unanswered prompts); an explicit "no" to the switch question
skips the second question and proceeds directly to launch; when the
second question is reached, answering "no" terminates the flow with no
action. -/
theorem c2_amended (ans ans2 : Nat → PyVal)
    (h : ans 0 = .pystr "no")
    (h0 : ∀ i, i < 5 → ans2 i = .pynone)
    (h5 : ans2 5 = .pystr "no") :
    handle_async_prompt true ans =
      { outcome := .launched, switchAsks := 1, launchAsks := 0 } ∧
    handle_async_prompt true ans2 =
      { outcome := .noAction, switchAsks := 5, launchAsks := 1 } := by
  have e0 := h0 0 (by norm_num)
  have e1 := h0 1 (by norm_num)
  have e2 := h0 2 (by norm_num)
  have e3 := h0 3 (by norm_num)
  have e4 := h0 4 (by norm_num)
  constructor
  · simp [handle_async_prompt, switchLoop, launchLoop, h, isYesNoVal, truthy]
  · simp [handle_async_prompt, switchLoop, launchLoop, e0, e1, e2, e3, e4, h5,
      isYesNoVal, truthy]

/-- Witness for `c2_amended` at concrete answer streams. -/
theorem c2_amended_witness :
    handle_async_prompt true (fun _ => .pystr "no") =
      { outcome := .launched, switchAsks := 1, launchAsks := 0 } ∧
    handle_async_prompt true (fun i => if i < 5 then .pynone else .pystr "no") =
      { outcome := .noAction, switchAsks := 5, launchAsks := 1 } :=
  c2_amended (fun _ => .pystr "no") (fun i => if i < 5 then .pynone else .pystr "no")
    rfl (fun i hi => by simp [hi]) (by decide)

/-! ## Claim C3 -/

/-- **C3 counterexample**: the user-defined command key `"ab"` (length 2)
appears as a key of the built Alias Index — user-command keys are never
length-checked. -/
theorem c3_counterexample :
    dmem (get_app_aliases ⟨[("ab", "mycmd")], []⟩ fcfgDefault []) "ab" = true ∧
    ¬ (3 ≤ "ab".length) := by decide

/-- **C3 (amended)**: only the directly-installed candidate names are
subject to the 3–20 length bound; user-defined command keys, configured
alias strings and KDE-quirk aliases are installed without a length
check.  Consequently the bound holds for every key of the built index
whenever the user-command keys and configured alias strings already
satisfy it and no discovered app carries the "KDE" category (so the
quirk never fires). -/
theorem c3_amended (cfg : LinuxAliasCfg) (fcfg : CatalogFilters) (fs : List SearchDir)
    (h1 : ∀ k, dmem cfg.user_commands k = true → 3 ≤ k.length ∧ k.length ≤ 20)
    (h2 : ∀ p ∈ cfg.aliases, ∀ s ∈ p.2, 3 ≤ s.length ∧ s.length ≤ 20)
    (h3 : ∀ a ∈ get_desktop_apps fcfg fs, (a.Categories.getD []).contains "KDE" = false) :
    ∀ k, dmem (get_app_aliases cfg fcfg fs) k = true → 3 ≤ k.length ∧ k.length ≤ 20 := by
  unfold get_app_aliases
  exact foldl_dict_inv (processApp cfg) KeysBounded (get_desktop_apps fcfg fs)
    cfg.user_commands
    (fun a ha d' hd' => processApp_bounded cfg d' a h2 (h3 a ha) hd') h1

/-- Witness for `c3_amended` at a concrete configuration and catalog. -/
theorem c3_amended_witness : 3 ≤ "Firefox".length ∧ "Firefox".length ≤ 20 :=
  c3_amended ⟨[], []⟩ fcfgDefault fsFirefox
    (fun k hk => by simp [dmem, dget] at hk)
    (fun p hp => absurd hp (List.not_mem_nil p))
    (by decide)
    "Firefox" (by decide)

/-! ## Claim C4 -/

/-- **C4 counterexample**: the record's raw `Exec` value is
`"/usr/bin/firefox --new-window"`, but the Alias Index maps the
installed alias `"Firefox"` to the executable basename `"firefox"` —
not to the raw launch string. -/
theorem c4_counterexample :
    appFirefox.Exec = some "/usr/bin/firefox --new-window" ∧
    dget (get_app_aliases ⟨[], []⟩ fcfgDefault fsFirefox) "Firefox" = some "firefox" ∧
    some "firefox" ≠ some "/usr/bin/firefox --new-window" := by decide

/-- **C4 (amended)**: every alias installed for a discovered record maps
to the executable basename of the record's `Exec` command (first
space-separated token, stripped of path and extension), not to the raw
`Exec` string: shown for every in-bound candidate name of the
last-enumerated record. -/
theorem c4_amended (cfg : LinuxAliasCfg) (fcfg : CatalogFilters) (fs : List SearchDir)
    (l : List AppInfo) (a : AppInfo) (name : String)
    (h : get_desktop_apps fcfg fs = l ++ [a])
    (hn : name ∈ namesList a)
    (hb : 3 ≤ name.length ∧ name.length ≤ 20) :
    dget (get_app_aliases cfg fcfg fs) name = some (execBasename (a.Exec.getD "")) :=
  get_app_aliases_last cfg fcfg fs l a name h hn hb

/-- Witness for `c4_amended` at the concrete Firefox catalog. -/
theorem c4_amended_witness :
    dget (get_app_aliases ⟨[], []⟩ fcfgDefault fsFirefox) "firefox"
      = some (execBasename (appFirefox.Exec.getD "")) :=
  c4_amended ⟨[], []⟩ fcfgDefault fsFirefox [] appFirefox "firefox"
    (by decide) (by decide) (by decide)

/-! ## Claim C5 -/

/-- **C5**: `launch_app` accepts a best match scoring exactly at the
configured threshold (default 0.85) — the spawn is attempted — and for a
best score strictly below the threshold it returns false with no spawn
attempted. -/
theorem c5_threshold (mr : String × ℚ) (ts : Option ℚ) (spawnOk : Bool) :
    (mr.2 = ts.getD (mkRat 85 100) → (launch_app mr ts spawnOk).attempted = true) ∧
    (mr.2 < ts.getD (mkRat 85 100) →
      launch_app mr ts spawnOk = { ok := false, spawned := none, attempted := false }) := by
  constructor
  · intro h
    unfold launch_app
    rw [if_pos (le_of_eq h.symm)]
    split <;> rfl
  · intro h
    unfold launch_app
    rw [if_neg (not_le.mpr h)]

/-- Witness for `c5_threshold`: score 0.850 at default threshold is
accepted, score 0.849 is rejected. -/
theorem c5_threshold_witness :
    (launch_app ("firefox", mkRat 85 100) none true).attempted = true ∧
    launch_app ("firefox", mkRat 849 1000) none true
      = { ok := false, spawned := none, attempted := false } :=
  ⟨(c5_threshold ("firefox", mkRat 85 100) none true).1 rfl,
   (c5_threshold ("firefox", mkRat 849 1000) none true).2 (by decide)⟩

/-! ## Claim C6 -/

/-- **C6 counterexample**: the same parsed record placed in two search
paths is yielded twice by the Linux catalog enumeration — there is no
deduplication, the later (lower-priority) duplicate is yielded again. -/
theorem c6_counterexample :
    get_desktop_apps fcfgDefault
      [(true, [("firefox.desktop", some appFirefox)]),
       (true, [("firefox.desktop", some appFirefox)])]
      = [appFirefox, appFirefox] := by decide

/-- **C6 (amended)**: the macOS enumeration deduplicates on the
lowercased name, first occurrence (earlier search path) wins — it equals
the candidate stream filtered by keep-first deduplication; the Linux
enumeration (see the counterexample) performs no deduplication. -/
theorem c6_amended (bl : List String) (fs : List MacDir) :
    get_macos_apps bl fs = dedupKeepFirst (macCandidates bl fs) := by
  unfold get_macos_apps dedupKeepFirst macCandidates
  exact macAppsAux_eq bl fs []

/-! ## Claim C7 -/

/-- **C7 counterexample**: with `terminate_all` false, the first matched
process (most recent, pid 1) fails to terminate with a caught exception,
and a termination request is then issued to the later process (pid 2):
requested pids are `[1, 2]`. -/
theorem c7_counterexample :
    (close_by_process false (fun _ _ => 1) "firefox"
        [{ pid := 1, name := "firefox", create_time := 10, zombie := false,
           terminateOk := false },
         { pid := 2, name := "firefox", create_time := 5, zombie := false,
           terminateOk := true }]).1.1 = [1, 2] := by decide

/-- **C7 (amended)**: with `terminate_all` false the loop stops after the
first **successful** termination request: it requests termination of
every failing match in order and of the first succeeding one, then
breaks; the terminated list is that first success (if any). -/
theorem c7_amended (fz : String → String → ℚ) (resolvedCmd : String) (procs : List Proc) :
    close_by_process false fz resolvedCmd procs =
      ((((match_process fz resolvedCmd procs).takeWhile
            (fun p => !p.terminateOk)).map Proc.pid ++
          (((match_process fz resolvedCmd procs).dropWhile
            (fun p => !p.terminateOk)).take 1).map Proc.pid,
        (((match_process fz resolvedCmd procs).dropWhile
            (fun p => !p.terminateOk)).take 1).map Proc.pid),
       !((((match_process fz resolvedCmd procs).dropWhile
            (fun p => !p.terminateOk)).take 1).map Proc.pid).isEmpty) := by
  unfold close_by_process
  rw [closeScan_false]

/-! ## Claim C8 -/

/-- **C8 counterexample**: a bundle whose `Contents/Info.plist` is
missing yields the empty result, not a minimal record. -/
theorem c8_counterexample :
    parse_app_bundle "/Applications/TestApp.app" PlistFile.missing = none := by rfl

/-- **C8 (amended)**: the minimal record derived from the bundle
directory name is produced only when the plist exists but cannot be
parsed (corrupt); a missing plist yields the empty result. -/
theorem c8_amended (app_path : String) :
    parse_app_bundle app_path PlistFile.corrupt =
      some { name := pyReplace ".app" "" (pyBasename app_path), path := app_path,
             bundle_id := "", version := "", localized_names := [] } ∧
    parse_app_bundle app_path PlistFile.missing = none :=
  ⟨rfl, rfl⟩

/-! ## Claim C9 -/

/-- **C9**: every window returned by `match_window` scores at or above
the threshold, its score is maximal among all candidate windows, any two
returned windows share that score, and every window scoring strictly
lower is excluded. -/
theorem c9_match_window (fz : String → String → ℚ) (thresh : ℚ) (app : String)
    (windows : List Window) :
    (∀ w ∈ match_window fz thresh app windows,
        thresh ≤ wScore fz app w ∧
        ∀ x ∈ windows, wScore fz app x ≤ wScore fz app w) ∧
    (∀ w ∈ match_window fz thresh app windows,
        ∀ x ∈ match_window fz thresh app windows, wScore fz app w = wScore fz app x) ∧
    (∀ w ∈ match_window fz thresh app windows, ∀ x ∈ windows,
        wScore fz app x < wScore fz app w →
        x ∉ match_window fz thresh app windows) := by
  have hinv : WinInv fz thresh app
      (windows.foldl (matchWindowStep fz thresh app) ([], 0)) :=
    matchWindow_foldl_inv fz thresh app windows ([], 0)
      (fun w hw => absurd hw (List.not_mem_nil w))
  refine ⟨?_, ?_, ?_⟩
  · intro w hw
    have h := hinv w hw
    refine ⟨h.2, ?_⟩
    intro x hx
    by_cases hxt : thresh ≤ wScore fz app x
    · have hub := matchWindow_best_ub fz thresh app windows ([], 0) x hx hxt
      rw [h.1]
      exact hub
    · exact le_of_lt (lt_of_lt_of_le (not_le.mp hxt) h.2)
  · intro w hw x hx
    rw [(hinv w hw).1, (hinv x hx).1]
  · intro w hw x _ hlt hmem
    rw [(hinv w hw).1, (hinv x hmem).1] at hlt
    exact lt_irrefl _ hlt

/-- Concrete scorer for the `c9` witness. -/
def fzWin (s : String) (_t : String) : ℚ :=
  if s = "wx" then mkRat 9 10 else if s = "wy" then mkRat 19 20 else 0

/-- Two windows for the `c9` witness. -/
def winX : Window := { id := "0x1", procName := "wx", create_time := 1, title := "wx" }

def winY : Window := { id := "0x2", procName := "wy", create_time := 2, title := "wy" }

/-- Witness for `c9_match_window` at a concrete window list. -/
theorem c9_match_window_witness :
    mkRat 85 100 ≤ wScore fzWin "q" winY ∧
    wScore fzWin "q" winX ≤ wScore fzWin "q" winY :=
  ⟨((c9_match_window fzWin (mkRat 85 100) "q" [winX, winY]).1 winY (by decide)).1,
   ((c9_match_window fzWin (mkRat 85 100) "q" [winX, winY]).1 winY (by decide)).2
     winX (by decide)⟩

/-! ## Claim C10 -/

/-- **C10**: when building the alias cache raises, the `app_aliases`
property returns the empty mapping instead of propagating the exception,
`is_cache_valid` is false afterwards, and a subsequent `launch_app` call
whose lookup finds no match performs exactly one cache rebuild before
returning false (one build from the property access plus the one rebuild:
`builds` rises by two in total, `rebuilds` by one). -/
theorem c10_cache_recovery (build : Nat → Option Dict)
    (matcher : Dict → Option (String × ℚ)) (thresh : ℚ) (spawnOk : Bool) (n r : Nat)
    (hb : build n = none) (hb2 : build (n + 1) = none)
    (hm : ∀ d, matcher d = none) :
    (app_aliases_get build ⟨none, false, n, r⟩).1 = [] ∧
    is_cache_valid (app_aliases_get build ⟨none, false, n, r⟩).2 = false ∧
    (mac_launch_app build matcher thresh spawnOk
        (app_aliases_get build ⟨none, false, n, r⟩).2).1 = false ∧
    (mac_launch_app build matcher thresh spawnOk
        (app_aliases_get build ⟨none, false, n, r⟩).2).2.rebuilds = r + 1 ∧
    (mac_launch_app build matcher thresh spawnOk
        (app_aliases_get build ⟨none, false, n, r⟩).2).2.builds = n + 1 + 1 + 1 := by
  have h1 : app_aliases_get build ⟨none, false, n, r⟩
      = ([], ⟨none, true, n + 1, r⟩) := by
    simp [app_aliases_get, hb]
  rw [h1]
  refine ⟨rfl, rfl, ?_⟩
  cases h3 : build (n + 1 + 1) with
  | none =>
    simp [mac_launch_app, app_aliases_get, hb2, hm, is_cache_valid,
      ensure_cache_or_rebuild, refresh_app_cache, h3]
  | some d =>
    simp [mac_launch_app, app_aliases_get, hb2, hm, is_cache_valid,
      ensure_cache_or_rebuild, refresh_app_cache, h3]

/-- Witness for `c10_cache_recovery` with an always-failing builder and
an always-empty lookup. -/
theorem c10_cache_recovery_witness :
    (app_aliases_get (fun _ => none) ⟨none, false, 0, 0⟩).1 = [] ∧
    is_cache_valid (app_aliases_get (fun _ => none) ⟨none, false, 0, 0⟩).2 = false ∧
    (mac_launch_app (fun _ => none) (fun _ => none) (mkRat 85 100) true
        (app_aliases_get (fun _ => none) ⟨none, false, 0, 0⟩).2).1 = false ∧
    (mac_launch_app (fun _ => none) (fun _ => none) (mkRat 85 100) true
        (app_aliases_get (fun _ => none) ⟨none, false, 0, 0⟩).2).2.rebuilds = 0 + 1 ∧
    (mac_launch_app (fun _ => none) (fun _ => none) (mkRat 85 100) true
        (app_aliases_get (fun _ => none) ⟨none, false, 0, 0⟩).2).2.builds = 0 + 1 + 1 + 1 :=
  c10_cache_recovery (fun _ => none) (fun _ => none) (mkRat 85 100) true 0 0
    rfl rfl (fun _ => rfl)
